import Mathlib

/-!
Verification of the moment-detection and subtitle-chunking engine.

Shallow embedding of the analytics engine:
  - src/config.py           : configuration constants
  - src/moment_detector.py  : keyword spotter, loudness spike detector,
                              moment merger, clip window resolver
  - src/video_processor.py  : word timing extraction and subtitle chunking

Times, durations and scores are modelled as rationals (the Python floats),
except the loudness analysis, whose standard deviation needs a square root
and is therefore modelled over the reals.
-/

/- ### Configuration (src/config.py) -/

def MAX_CLIP_DURATION : ℚ := 60

def MIN_CLIP_DURATION : ℚ := 10

def BUFFER_BEFORE : ℚ := 3

def BUFFER_AFTER : ℚ := 5

def VOLUME_SPIKE_MULTIPLIER : ℝ := 1.5

def EXCITEMENT_KEYWORDS : List String :=
  ["gila", "wow", "anjir", "mantap", "keren", "bagus",
   "savage", "legendary", "godlike", "rampage", "monster kill",
   "double kill", "triple kill", "ultra kill", "mega kill",
   "killing spree", "unstoppable", "wipeout", "ace",
   "headshot", "kill", "nice", "gg", "yes", "yeah"]

/- ### Data model -/

/-- A transcript segment as consumed by the engine: `segment['start']`,
`segment['end']`, `segment['text']` in the Python dictionaries. -/
structure Segment where
  start : ℚ
  end_ : ℚ
  text : String
deriving DecidableEq, Repr, Inhabited

/-- A keyword moment as built by `find_excitement_keywords`
(src/moment_detector.py lines 185-191). -/
structure KeywordMoment where
  start : ℚ
  end_ : ℚ
  text : String
  keywords : List String
  score : ℚ
deriving DecidableEq, Repr, Inhabited

/-- A unified moment as built in `detect_best_moment` step 5
(src/moment_detector.py lines 272-294): keys `start`, `end`, `score`,
`type`, `details`, `text`. -/
structure Moment where
  start : ℚ
  end_ : ℚ
  score : ℚ
  type : String
  details : String
  text : String
deriving DecidableEq, Repr, Inhabited

/-- The clip window returned by `detect_best_moment` step 8
(src/moment_detector.py lines 336-357): keys `start`, `end`, `duration`. -/
structure ClipWindow where
  start : ℚ
  end_ : ℚ
  duration : ℚ
deriving DecidableEq, Repr, Inhabited

/-- A word timing as built by `get_word_level_timings`
(src/video_processor.py lines 196-200). -/
structure WordT where
  start : ℚ
  end_ : ℚ
  text : String
deriving DecidableEq, Repr, Inhabited

/-- The state of one chunk in `group_words_into_chunks`: the span bounds
`chunk_start`/`chunk_end` and the accumulated word list `current_chunk`.
The Python accumulator keeps the word texts; we keep the full timed words
(their texts are what the flush renders, see `SubtitleChunk.ofChunkW`). -/
structure ChunkW where
  start : ℚ
  end_ : ℚ
  wordsW : List WordT
deriving DecidableEq, Repr, Inhabited

/-- A rendered subtitle chunk (src/video_processor.py lines 254-258):
keys `start`, `end`, `text` with `text = ' '.join(current_chunk)`. -/
structure SubtitleChunk where
  start : ℚ
  end_ : ℚ
  text : String
deriving DecidableEq, Repr, Inhabited

/-- Rendering a chunk: `' '.join(current_chunk)` over the accumulated words. -/
def SubtitleChunk.ofChunkW (c : ChunkW) : SubtitleChunk :=
  ⟨c.start, c.end_, String.intercalate " " (c.wordsW.map WordT.text)⟩

/- ### Keyword Spotter (src/moment_detector.py, find_excitement_keywords) -/

/-- Python `str.lower()`: per-character lowercase (the keywords and texts
involved are ASCII, where this matches Python). -/
def strLower (s : String) : String :=
  ⟨s.data.map Char.toLower⟩

/-- Boolean prefix test on character lists. -/
def charPre : List Char → List Char → Bool
  | [], _ => true
  | _ :: _, [] => false
  | a :: as, b :: bs => a = b && charPre as bs

/-- Boolean contiguous-substring test on character lists. -/
def charSub (needle : List Char) : List Char → Bool
  | [] => needle.isEmpty
  | b :: bs => charPre needle (b :: bs) || charSub needle bs

/-- Python substring membership `kw in text` on the characters. -/
def strContains (text kw : String) : Bool :=
  charSub kw.data text.data

/-- Embedding of `find_excitement_keywords` (src/moment_detector.py lines
172-193), parameterized by the configured keyword list
(`config.EXCITEMENT_KEYWORDS` in the source).  For each segment the text is
lower-cased, the keywords found as substrings are collected, and a scored
moment is emitted when that list is non-empty, scored `len(found) * 2`. -/
def find_excitement_keywords (kws : List String) (segments : List Segment) :
    List KeywordMoment :=
  segments.flatMap (fun seg =>
    let text := strLower seg.text
    let found := kws.filter (fun kw => strContains text kw)
    if found = [] then []
    else [⟨seg.start, seg.end_, seg.text, found, (found.length : ℚ) * 2⟩])

/- ### Loudness Spike Detector (src/moment_detector.py, find_volume_spikes) -/

/-- Arithmetic mean `np.mean`, with the empty list mapped to 0 (division by
zero is 0 in Lean; the empty case never reaches a comparison). -/
noncomputable def meanR (xs : List ℝ) : ℝ := xs.sum / xs.length

/-- Population standard deviation `np.std`. -/
noncomputable def stdR (xs : List ℝ) : ℝ :=
  Real.sqrt ((xs.map (fun x => (x - meanR xs) ^ 2)).sum / xs.length)

open Classical in
/-- The above-threshold frame indices, `np.where(rms > threshold)[0]`
(src/moment_detector.py lines 197-205), in ascending order. -/
noncomputable def spikeIndices (rms : List ℝ) (mult : ℝ) : List ℕ :=
  (List.range rms.length).filter
    (fun i => decide (rms.getD i 0 > meanR rms + stdR rms * mult))

/-- The inner loop of the spike clustering (src/moment_detector.py lines
210-221): `prev` is the previously seen index `spike_indices[i-1]` and
`cur` the accumulating `current_group`. -/
def groupSpikesLoop (cur : List ℕ) (prev : ℕ) : List ℕ → List (List ℕ)
  | [] => [cur]
  | i :: rest =>
      if (i : ℤ) - (prev : ℤ) ≤ 10 then groupSpikesLoop (cur ++ [i]) i rest
      else cur :: groupSpikesLoop [i] i rest

/-- Grouping consecutive spike indices into clusters
(src/moment_detector.py lines 210-223). -/
def groupSpikes : List ℕ → List (List ℕ) :=
  fun l =>
    match l with
    | [] => []
    | i :: rest => groupSpikesLoop [i] i rest

/-- A volume-spike moment (src/moment_detector.py lines 235-240). -/
structure VolumeMoment where
  start : ℝ
  end_ : ℝ
  peak_volume : ℝ
  score : ℝ

/-- Peak of `rms` over a cluster, `np.max(rms[group])`. -/
noncomputable def peakOf (rms : List ℝ) (g : List ℕ) : ℝ :=
  match g.map (fun i => rms.getD i 0) with
  | [] => 0
  | x :: xs => xs.foldl max x

/-- Embedding of `find_volume_spikes` (src/moment_detector.py lines
195-242): threshold at `mean + std * multiplier`, cluster the
above-threshold indices, then widen each cluster by 5 frames on each side
(clamped to the curve bounds) and score it `peak * 1.5`. -/
noncomputable def find_volume_spikes (times rms : List ℝ) (mult : ℝ) :
    List VolumeMoment :=
  let idx := spikeIndices rms mult
  if idx = [] then []
  else
    (groupSpikes idx).map (fun g =>
      let start_idx : ℕ := ((g.headI : ℤ) - 5).toNat
      let end_idx : ℕ := min (times.length - 1) (g.getLastI + 5)
      let peak := peakOf rms g
      ⟨times.getD start_idx 0, times.getD end_idx 0, peak, peak * 1.5⟩)

/- ### Moment Merger (src/moment_detector.py, detect_best_moment step 6) -/

/-- Merging one moment into the accumulator (src/moment_detector.py lines
311-318): extend the end, add the scores, join the type tags with `+`, and
append non-empty `text`/`details` behind a `" | "` separator. -/
def mergeOne (current m : Moment) : Moment :=
  { start := current.start
    end_ := max current.end_ m.end_
    score := current.score + m.score
    type := current.type ++ "+" ++ m.type
    details := if m.details = "" then current.details
               else current.details ++ " | " ++ m.details
    text := if m.text = "" then current.text
            else current.text ++ " | " ++ m.text }

/-- The merge fold over the tail of the sorted moment list
(src/moment_detector.py lines 305-323): absorb the next moment when its
start is within 2 seconds of the current end, otherwise flush. -/
def mergeLoop (current : Moment) : List Moment → List Moment
  | [] => [current]
  | m :: rest =>
      if m.start ≤ current.end_ + 2 then mergeLoop (mergeOne current m) rest
      else current :: mergeLoop m rest

/-- Merging a start-sorted moment list (src/moment_detector.py lines
305-323); the empty case never runs in the source (guarded at line 297). -/
def mergeMoments : List Moment → List Moment
  | [] => []
  | m :: rest => mergeLoop m rest

/-- Python stable sort by start, `all_moments.sort(key=lambda x: x['start'])`
(src/moment_detector.py line 302). -/
def sortByStart (ms : List Moment) : List Moment :=
  ms.mergeSort (fun a b => a.start ≤ b.start)

/-- Python `max(merged_moments, key=lambda x: x['score'])`
(src/moment_detector.py line 326): the first element attaining the
maximal score, since `max` only replaces on strict improvement. -/
def pickBest (first : Moment) (rest : List Moment) : Moment :=
  rest.foldl (fun best x => if x.score > best.score then x else best) first

/-- Steps 6-7 of `detect_best_moment` (src/moment_detector.py lines
296-326): return `None` when no moments were detected, otherwise sort,
merge and select the highest-scoring merged moment. -/
def detect_best_moment_select (all_moments : List Moment) : Option Moment :=
  match sortByStart all_moments with
  | [] => none
  | m :: rest =>
      match mergeMoments (m :: rest) with
      | [] => none
      | c :: cs => some (pickBest c cs)

/- ### Clip Window Resolver (src/moment_detector.py, step 8) -/

/-- Embedding of step 8 of `detect_best_moment` (src/moment_detector.py
lines 336-352).  The buffered window is clamped to the max duration by
re-centering on the moment midpoint, then — evaluated on the pre-centering
duration `d0`, exactly as the source reads the stale `duration` variable —
expanded symmetrically to the min duration with the start clamped at 0. -/
def resolve_clip_window (mstart mend bufB bufA minD maxD : ℚ) : ClipWindow :=
  let s0 := max 0 (mstart - bufB)
  let e0 := mend + bufA
  let d0 := e0 - s0
  let s1 := if d0 > maxD then max 0 ((mstart + mend) / 2 - maxD / 2) else s0
  let e1 := if d0 > maxD then s1 + maxD else e0
  let s2 := if d0 < minD then max 0 (s1 - (minD - d0) / 2) else s1
  let e2 := if d0 < minD then e1 + (minD - d0) / 2 else e1
  ⟨s2, e2, e2 - s2⟩

/- ### Subtitle Chunker (src/video_processor.py, group_words_into_chunks) -/

/-- The chunk-grouping loop (src/video_processor.py lines 237-269):
`cur`/`cstart`/`cend` are `current_chunk`/`chunk_start`/`chunk_end`.  A word
joins the open chunk while the chunk holds fewer than `maxW` words and the
word ends within `maxD` of the chunk start; otherwise the chunk is flushed
and the word opens a new one. -/
def groupWordsLoop (maxW : ℕ) (maxD : ℚ) (cur : List WordT) (cstart cend : ℚ) :
    List WordT → List ChunkW
  | [] => [⟨cstart, cend, cur⟩]
  | w :: rest =>
      if cur.length < maxW ∧ w.end_ - cstart < maxD then
        groupWordsLoop maxW maxD (cur ++ [w]) cstart w.end_ rest
      else
        ⟨cstart, cend, cur⟩ :: groupWordsLoop maxW maxD [w] w.start w.end_ rest

/-- The chunk grouping before text rendering: the first word opens the
first chunk (the `if not current_chunk` branch, which only fires on the
first iteration since every later chunk starts non-empty). -/
def groupWordsW (ws : List WordT) (maxW : ℕ) (maxD : ℚ) : List ChunkW :=
  match ws with
  | [] => []
  | w :: rest => groupWordsLoop maxW maxD [w] w.start w.end_ rest

/-- Embedding of `group_words_into_chunks` (src/video_processor.py lines
225-271, defaults `max_words=3`, `max_duration=2.5`): the grouped chunks
with each text rendered as the words joined by single spaces. -/
def group_words_into_chunks (ws : List WordT) (maxW : ℕ) (maxD : ℚ) :
    List SubtitleChunk :=
  (groupWordsW ws maxW maxD).map SubtitleChunk.ofChunkW

/- ### Helper lemmas: Moment Merger -/

/-- The gap law between two flushed moments: the later one starts strictly
beyond the 2-second grace gap after the earlier one's end. -/
def gapR (a b : Moment) : Prop := a.end_ + 2 < b.start

theorem mergeLoop_ne_nil (ms : List Moment) (c : Moment) :
    mergeLoop c ms ≠ [] := by
  induction ms generalizing c with
  | nil => simp [mergeLoop]
  | cons m rest ih =>
    rw [mergeLoop]
    split
    · exact ih _
    · simp

theorem mergeLoop_head_start (ms : List Moment) (c : Moment) :
    ∀ x, (mergeLoop c ms).head? = some x → x.start = c.start := by
  induction ms generalizing c with
  | nil =>
    intro x hx
    simp [mergeLoop] at hx
    rw [← hx]
  | cons m rest ih =>
    intro x hx
    rw [mergeLoop] at hx
    split at hx
    · exact (ih (mergeOne c m) x hx).trans rfl
    · simp at hx
      rw [← hx]

theorem mergeLoop_chain (ms : List Moment) (c : Moment) :
    List.Chain' gapR (mergeLoop c ms) := by
  induction ms generalizing c with
  | nil => simp [mergeLoop]
  | cons m rest ih =>
    rw [mergeLoop]
    split
    · exact ih _
    · rw [List.chain'_cons']
      refine ⟨?_, ih m⟩
      intro y hy
      have hstart := mergeLoop_head_start rest m y hy
      have : ¬ m.start ≤ c.end_ + 2 := by assumption
      unfold gapR
      rw [hstart]
      linarith [not_le.mp this]

theorem mergeMoments_chain (ms : List Moment) :
    List.Chain' gapR (mergeMoments ms) := by
  cases ms with
  | nil => simp [mergeMoments]
  | cons m rest => exact mergeLoop_chain rest m

theorem mergeLoop_eq_of_chain (ms : List Moment) (c : Moment)
    (h : List.Chain' gapR (c :: ms)) : mergeLoop c ms = c :: ms := by
  induction ms generalizing c with
  | nil => simp [mergeLoop]
  | cons m rest ih =>
    rw [List.chain'_cons] at h
    rw [mergeLoop]
    have : ¬ m.start ≤ c.end_ + 2 := by
      have := h.1
      unfold gapR at this
      linarith
    rw [if_neg this, ih m h.2]

theorem mergeLoop_score_sum (ms : List Moment) (c : Moment) :
    ((mergeLoop c ms).map Moment.score).sum = c.score + (ms.map Moment.score).sum := by
  induction ms generalizing c with
  | nil => simp [mergeLoop]
  | cons m rest ih =>
    rw [mergeLoop]
    split
    · rw [ih]
      simp only [mergeOne, List.map_cons, List.sum_cons]
      ring
    · simp only [List.map_cons, List.sum_cons, ih m]

theorem mergeLoop_wf (ms : List Moment) (c : Moment)
    (hc : c.start ≤ c.end_) (hms : ∀ m ∈ ms, m.start ≤ m.end_) :
    ∀ x ∈ mergeLoop c ms, x.start ≤ x.end_ := by
  induction ms generalizing c with
  | nil => simpa [mergeLoop] using hc
  | cons m rest ih =>
    rw [mergeLoop]
    have hm := hms m (by simp)
    have hrest : ∀ x ∈ rest, x.start ≤ x.end_ := fun x hx => hms x (by simp [hx])
    split
    · refine ih (mergeOne c m) ?_ hrest
      simp only [mergeOne]
      exact hc.trans (le_max_left _ _)
    · intro x hx
      rcases List.mem_cons.mp hx with rfl | hx
      · exact hc
      · exact ih m hm hrest x hx

theorem pickBest_spec (rest : List Moment) (first : Moment) :
    (pickBest first rest = first ∧ ∀ y ∈ rest, y.score ≤ first.score) ∨
    (∃ l1 l2, rest = l1 ++ pickBest first rest :: l2 ∧
      first.score < (pickBest first rest).score ∧
      (∀ y ∈ l1, y.score < (pickBest first rest).score) ∧
      (∀ y ∈ l2, y.score ≤ (pickBest first rest).score)) := by
  induction rest generalizing first with
  | nil => left; exact ⟨rfl, by simp⟩
  | cons x xs ih =>
    have hstep : pickBest first (x :: xs) =
        pickBest (if x.score > first.score then x else first) xs := rfl
    by_cases hx : x.score > first.score
    · rw [hstep, if_pos hx]
      rcases ih x with ⟨heq, hle⟩ | ⟨l1, l2, hsplit, hlt, hl1, hl2⟩
      · right
        refine ⟨[], xs, ?_, ?_, ?_, ?_⟩
        · rw [heq]; simp
        · rw [heq]; exact hx
        · simp
        · intro y hy
          rw [heq]
          exact hle y hy
      · right
        refine ⟨x :: l1, l2, ?_, ?_, ?_, ?_⟩
        · conv_lhs => rw [hsplit]
          simp
        · linarith
        · intro y hy
          rcases List.mem_cons.mp hy with rfl | hy
          · linarith
          · exact hl1 y hy
        · exact hl2
    · rw [hstep, if_neg hx]
      push_neg at hx
      rcases ih first with ⟨heq, hle⟩ | ⟨l1, l2, hsplit, hlt, hl1, hl2⟩
      · left
        refine ⟨heq, ?_⟩
        intro y hy
        rcases List.mem_cons.mp hy with rfl | hy
        · exact hx
        · exact hle y hy
      · right
        refine ⟨x :: l1, l2, ?_, ?_, ?_, ?_⟩
        · conv_lhs => rw [hsplit]
          simp
        · exact hlt
        · intro y hy
          rcases List.mem_cons.mp hy with rfl | hy
          · linarith
          · exact hl1 y hy
        · exact hl2

theorem pickBest_mem (rest : List Moment) (first : Moment) :
    pickBest first rest ∈ first :: rest := by
  rcases pickBest_spec rest first with ⟨heq, _⟩ | ⟨l1, l2, hsplit, _, _, _⟩
  · rw [heq]; simp
  · have hmem : pickBest first rest ∈ l1 ++ pickBest first rest :: l2 := by simp
    rw [← hsplit] at hmem
    exact List.mem_cons_of_mem _ hmem

theorem chain_gap_pairwise (l : List Moment)
    (hc : List.Chain' gapR l) (hwf : ∀ x ∈ l, x.start ≤ x.end_) :
    List.Pairwise (fun a b => a.start < b.start) l := by
  haveI : IsTrans Moment (fun a b => a.start < b.start) :=
    ⟨fun _ _ _ h1 h2 => lt_trans h1 h2⟩
  rw [← List.chain'_iff_pairwise]
  induction l with
  | nil => simp
  | cons a rest ih =>
    rw [List.chain'_cons'] at hc ⊢
    refine ⟨?_, ih hc.2 (fun x hx => hwf x (by simp [hx]))⟩
    intro y hy
    have hgap := hc.1 y hy
    have hwa := hwf a (by simp)
    unfold gapR at hgap
    linarith

/- ### Claim theorems: Moment Merger -/

/-- C9: the Moment Merger is a closure operation.  In any merged output,
every consecutive pair of moments is separated by strictly more than the
2-second grace gap, so re-running `mergeMoments` on its own output performs
no further merges and returns the list unchanged. -/
theorem merger_idempotent (ms : List Moment) :
    List.Chain' (fun a b => a.end_ + 2 < b.start) (mergeMoments ms) ∧
    mergeMoments (mergeMoments ms) = mergeMoments ms := by
  have hchain := mergeMoments_chain ms
  refine ⟨hchain, ?_⟩
  rcases hm : mergeMoments ms with _ | ⟨c, cs⟩
  · simp [mergeMoments]
  · rw [hm] at hchain
    exact mergeLoop_eq_of_chain cs c hchain

/-- C4: the merge step law.  The fold merges the next moment into the
accumulator exactly when `next.start ≤ current.end + 2`; a merge sets the
end to the max of the two ends and the score to the sum of the two scores;
consequently the total score is conserved by merging; and the concrete
scenario `[10,12]` score 4 with `[13,15]` score 3 merges to `[10,15]`
score 7. -/
theorem merge_step_law :
    (∀ (c m : Moment) (rest : List Moment),
        mergeLoop c (m :: rest) =
          if m.start ≤ c.end_ + 2 then mergeLoop (mergeOne c m) rest
          else c :: mergeLoop m rest) ∧
    (∀ c m : Moment, (mergeOne c m).end_ = max c.end_ m.end_ ∧
        (mergeOne c m).score = c.score + m.score) ∧
    (∀ ms : List Moment,
        ((mergeMoments ms).map Moment.score).sum = (ms.map Moment.score).sum) ∧
    mergeMoments [⟨10, 12, 4, "keyword", "", ""⟩, ⟨13, 15, 3, "keyword", "", ""⟩] =
      [⟨10, 15, 7, "keyword+keyword", "", ""⟩] := by
  refine ⟨fun c m rest => rfl, fun c m => ⟨rfl, rfl⟩, ?_, ?_⟩
  · intro ms
    cases ms with
    | nil => simp [mergeMoments]
    | cons m rest => simp [mergeMoments, mergeLoop_score_sum]
  · norm_num [mergeMoments, mergeLoop, mergeOne]
    rfl

/-- C3: after sorting and merging, the engine selects a merged moment of
maximal score, and among equal-score merged moments the one with the
earliest start (Python `max` keeps the first maximal element, and merged
starts are strictly increasing). -/
theorem best_moment_selection (ms : List Moment)
    (hwf : ∀ m ∈ ms, m.start ≤ m.end_) (best : Moment)
    (hb : detect_best_moment_select ms = some best) :
    best ∈ mergeMoments (sortByStart ms) ∧
    (∀ y ∈ mergeMoments (sortByStart ms), y.score ≤ best.score) ∧
    (∀ y ∈ mergeMoments (sortByStart ms), y.score = best.score →
      best.start ≤ y.start) := by
  unfold detect_best_moment_select at hb
  split at hb
  · exact absurd hb (by simp)
  rename_i m rest hs
  split at hb
  · exact absurd hb (by simp)
  rename_i c cs hmm
  simp only [Option.some.injEq] at hb
  subst hb
  have hwfs : ∀ x ∈ m :: rest, x.start ≤ x.end_ := by
    intro x hx
    refine hwf x ?_
    have hperm := List.mergeSort_perm ms (fun a b : Moment => a.start ≤ b.start)
    have : x ∈ sortByStart ms := by rw [hs]; exact hx
    exact hperm.mem_iff.mp this
  have hwfm : ∀ x ∈ c :: cs, x.start ≤ x.end_ := by
    have := mergeLoop_wf rest m (hwfs m (by simp))
      (fun x hx => hwfs x (by simp [hx]))
    rw [show mergeLoop m rest = mergeMoments (m :: rest) from rfl, hmm] at this
    exact this
  have hchain : List.Chain' gapR (c :: cs) := by
    have := mergeMoments_chain (m :: rest)
    rwa [hmm] at this
  have hpair := chain_gap_pairwise (c :: cs) hchain hwfm
  rw [show mergeMoments (sortByStart ms) = c :: cs by rw [hs, hmm]]
  rcases pickBest_spec cs c with ⟨heq, hle⟩ | ⟨l1, l2, hsplit, hlt, hl1, hl2⟩
  · rw [heq]
    refine ⟨by simp, ?_, ?_⟩
    · intro y hy
      rcases List.mem_cons.mp hy with rfl | hy
      · exact le_refl _
      · exact hle y hy
    · intro y hy _
      rcases List.mem_cons.mp hy with rfl | hy
      · exact le_refl _
      · exact le_of_lt ((List.pairwise_cons.mp hpair).1 y hy)
  · have hbmem : pickBest c cs ∈ c :: cs := pickBest_mem cs c
    refine ⟨hbmem, ?_, ?_⟩
    · intro y hy
      rcases List.mem_cons.mp hy with rfl | hy
      · exact le_of_lt hlt
      · rw [hsplit] at hy
        rcases List.mem_append.mp hy with h1 | h2
        · exact le_of_lt (hl1 y h1)
        · rcases List.mem_cons.mp h2 with rfl | h3
          · exact le_refl _
          · exact hl2 y h3
    · intro y hy hscore
      rcases List.mem_cons.mp hy with rfl | hy
      · exact absurd hscore (ne_of_lt hlt)
      · rw [hsplit] at hy
        rcases List.mem_append.mp hy with h1 | h2
        · exact absurd hscore (ne_of_lt (hl1 y h1))
        · rcases List.mem_cons.mp h2 with rfl | h3
          · exact le_refl _
          · have hp2 := List.pairwise_cons.mp hpair
            rw [hsplit] at hp2
            have hp3 := (List.pairwise_append.mp hp2.2).2.1
            exact le_of_lt ((List.pairwise_cons.mp hp3).1 y h3)

/-- Witness for C3 at a concrete input with two equal-score separated
moments: the earlier one is selected. -/
theorem best_moment_selection_witness :
    (∀ m ∈ ([⟨0, 1, 5, "keyword", "", ""⟩, ⟨10, 11, 5, "keyword", "", ""⟩] :
        List Moment), m.start ≤ m.end_) ∧
    detect_best_moment_select
        [⟨0, 1, 5, "keyword", "", ""⟩, ⟨10, 11, 5, "keyword", "", ""⟩] =
      some ⟨0, 1, 5, "keyword", "", ""⟩ ∧
    ((⟨0, 1, 5, "keyword", "", ""⟩ : Moment) ∈
        mergeMoments (sortByStart
          [⟨0, 1, 5, "keyword", "", ""⟩, ⟨10, 11, 5, "keyword", "", ""⟩]) ∧
      (∀ y ∈ mergeMoments (sortByStart
          [⟨0, 1, 5, "keyword", "", ""⟩, ⟨10, 11, 5, "keyword", "", ""⟩]),
        y.score ≤ (⟨0, 1, 5, "keyword", "", ""⟩ : Moment).score) ∧
      (∀ y ∈ mergeMoments (sortByStart
          [⟨0, 1, 5, "keyword", "", ""⟩, ⟨10, 11, 5, "keyword", "", ""⟩]),
        y.score = (⟨0, 1, 5, "keyword", "", ""⟩ : Moment).score →
          (⟨0, 1, 5, "keyword", "", ""⟩ : Moment).start ≤ y.start)) := by
  have hwf : ∀ m ∈ ([⟨0, 1, 5, "keyword", "", ""⟩,
      ⟨10, 11, 5, "keyword", "", ""⟩] : List Moment), m.start ≤ m.end_ := by
    intro m hm
    simp at hm
    rcases hm with rfl | rfl <;> norm_num
  have hdet : detect_best_moment_select
      [⟨0, 1, 5, "keyword", "", ""⟩, ⟨10, 11, 5, "keyword", "", ""⟩] =
      some ⟨0, 1, 5, "keyword", "", ""⟩ := by
    simp [detect_best_moment_select, sortByStart, List.mergeSort]
    norm_num [mergeMoments, mergeLoop, mergeOne, pickBest]
  exact ⟨hwf, hdet, best_moment_selection _ hwf _ hdet⟩

/- ### Claim theorems: Clip Window Resolver -/

/-- C1: for every valid configuration (`minD ≤ maxD`, non-negative buffers
and min duration) and every well-formed winning moment, the resolved clip
window's duration lies in `[minD, maxD]`, except when the start clamp at 0
fires in the min-duration branch (the moment sits too close to the start of
the video for a full window); in that case the window starts at 0 and its
duration is shorter than `minD` but never negative. -/
theorem clip_window_duration_bound (mstart mend bufB bufA minD maxD : ℚ)
    (hm0 : 0 ≤ mstart) (hms : mstart ≤ mend)
    (hb : 0 ≤ bufB) (ha : 0 ≤ bufA)
    (hmin : 0 ≤ minD) (hcfg : minD ≤ maxD) :
    (minD ≤ (resolve_clip_window mstart mend bufB bufA minD maxD).duration ∧
      (resolve_clip_window mstart mend bufB bufA minD maxD).duration ≤ maxD) ∨
    ((resolve_clip_window mstart mend bufB bufA minD maxD).start = 0 ∧
      0 ≤ (resolve_clip_window mstart mend bufB bufA minD maxD).duration ∧
      (resolve_clip_window mstart mend bufB bufA minD maxD).duration < minD) := by
  have hs0u : max 0 (mstart - bufB) ≤ mstart := max_le hm0 (by linarith)
  have hs0l : (0 : ℚ) ≤ max 0 (mstart - bufB) := le_max_left 0 _
  have he0 : mstart ≤ mend + bufA := by linarith
  simp only [resolve_clip_window]
  split_ifs with h1 h2 h2
  · -- both branches at once: impossible for minD ≤ maxD
    exfalso
    linarith
  · -- min-duration branch (the raw window is shorter than minD)
    rcases max_cases 0 (max 0 (mstart - bufB) -
        (minD - (mend + bufA - max 0 (mstart - bufB))) / 2) with
      ⟨hmx, hc⟩ | ⟨hmx, hc⟩
    · -- the start clamp fired
      rcases hc.lt_or_eq with hlt | heq
      · -- strict clamp: window starts at 0 and stays short of minD
        right
        rw [hmx]
        refine ⟨rfl, ?_, ?_⟩ <;> linarith
      · -- boundary: the expansion lands exactly on minD
        left
        rw [hmx]
        constructor <;> linarith
    · -- no clamp: the window is expanded to exactly minD
      left
      rw [hmx]
      constructor <;> linarith
  · -- max-duration branch: duration is exactly maxD
    left
    constructor <;> linarith
  · -- no branch: the raw buffered window is already within bounds
    left
    push_neg at h1 h2
    constructor <;> linarith

/-- Witness for C1 at the concrete scenario: moment `[100,101]`, buffers
3/5, bounds 10/60 (the raw 9-second window is expanded to 10 seconds). -/
theorem clip_window_duration_bound_witness :
    (0 : ℚ) ≤ 100 ∧ (100 : ℚ) ≤ 101 ∧ (0 : ℚ) ≤ 3 ∧ (0 : ℚ) ≤ 5 ∧
      (0 : ℚ) ≤ 10 ∧ (10 : ℚ) ≤ 60 ∧
    ((10 ≤ (resolve_clip_window 100 101 3 5 10 60).duration ∧
        (resolve_clip_window 100 101 3 5 10 60).duration ≤ 60) ∨
      ((resolve_clip_window 100 101 3 5 10 60).start = 0 ∧
        0 ≤ (resolve_clip_window 100 101 3 5 10 60).duration ∧
        (resolve_clip_window 100 101 3 5 10 60).duration < 10)) := by
  refine ⟨by norm_num, by norm_num, by norm_num, by norm_num, by norm_num,
    by norm_num, ?_⟩
  exact clip_window_duration_bound 100 101 3 5 10 60 (by norm_num) (by norm_num)
    (by norm_num) (by norm_num) (by norm_num) (by norm_num)

/- ### Helper lemmas: Subtitle Chunker -/

theorem headI_append_of_ne_nil {α : Type} [Inhabited α] (l l2 : List α)
    (h : l ≠ []) : (l ++ l2).headI = l.headI := by
  cases l with
  | nil => exact absurd rfl h
  | cons a t => rfl

theorem getLastI_concat {α : Type} [Inhabited α] (l : List α) (a : α) :
    (l ++ [a]).getLastI = a := by
  rw [List.getLastI_eq_getLast?, List.getLast?_concat]

theorem groupWordsLoop_flat (maxW : ℕ) (maxD : ℚ) :
    ∀ (ws cur : List WordT) (cstart cend : ℚ),
      (groupWordsLoop maxW maxD cur cstart cend ws).flatMap ChunkW.wordsW =
        cur ++ ws := by
  intro ws
  induction ws with
  | nil =>
    intro cur cs ce
    simp [groupWordsLoop]
  | cons w rest ih =>
    intro cur cs ce
    rw [groupWordsLoop]
    split
    · rw [ih]
      simp
    · simp [ih]

theorem groupWordsLoop_spans (maxW : ℕ) (maxD : ℚ) :
    ∀ (ws cur : List WordT) (cstart cend : ℚ),
      cur ≠ [] → cstart = cur.headI.start → cend = cur.getLastI.end_ →
      ∀ c ∈ groupWordsLoop maxW maxD cur cstart cend ws,
        c.wordsW ≠ [] ∧ c.start = c.wordsW.headI.start ∧
          c.end_ = c.wordsW.getLastI.end_ := by
  intro ws
  induction ws with
  | nil =>
    intro cur cs ce hne hh hl c hc
    simp [groupWordsLoop] at hc
    rw [hc]
    exact ⟨hne, hh, hl⟩
  | cons w rest ih =>
    intro cur cs ce hne hh hl c hc
    rw [groupWordsLoop] at hc
    split at hc
    · refine ih (cur ++ [w]) cs w.end_ (by simp) ?_ ?_ c hc
      · rw [headI_append_of_ne_nil cur [w] hne]
        exact hh
      · rw [getLastI_concat]
    · rcases List.mem_cons.mp hc with rfl | hc
      · exact ⟨hne, hh, hl⟩
      · exact ih [w] w.start w.end_ (by simp) rfl rfl c hc

theorem groupWordsLoop_bounds (maxW : ℕ) (maxD : ℚ) (hW : 1 ≤ maxW) :
    ∀ (ws cur : List WordT) (cstart cend : ℚ),
      1 ≤ cur.length → cur.length ≤ maxW →
      (2 ≤ cur.length → cend - cstart < maxD) →
      ∀ c ∈ groupWordsLoop maxW maxD cur cstart cend ws,
        1 ≤ c.wordsW.length ∧ c.wordsW.length ≤ maxW ∧
          (2 ≤ c.wordsW.length → c.end_ - c.start < maxD) := by
  intro ws
  induction ws with
  | nil =>
    intro cur cs ce h1 h2 h3 c hc
    simp [groupWordsLoop] at hc
    rw [hc]
    exact ⟨h1, h2, h3⟩
  | cons w rest ih =>
    intro cur cs ce h1 h2 h3 c hc
    rw [groupWordsLoop] at hc
    split at hc
    · rename_i hcond
      refine ih (cur ++ [w]) cs w.end_ ?_ ?_ ?_ c hc
      · simp
      · simp
        omega
      · intro _
        simpa using hcond.2
    · rcases List.mem_cons.mp hc with rfl | hc
      · exact ⟨h1, h2, h3⟩
      · exact ih [w] w.start w.end_ (by simp) (by simpa using hW)
          (by intro h; simp at h) c hc

/- ### Claim theorems: Subtitle Chunker -/

/-- C10: the chunk grouping partitions the input words.  Concatenating the
chunks' word lists gives back exactly the input list (no word dropped or
duplicated, order preserved); every chunk is non-empty and spans from its
first word's start to its last word's end; and the rendered output is
exactly these chunks with their words joined by single spaces. -/
theorem chunker_partition (ws : List WordT) (maxW : ℕ) (maxD : ℚ) :
    (groupWordsW ws maxW maxD).flatMap ChunkW.wordsW = ws ∧
    (∀ c ∈ groupWordsW ws maxW maxD,
        c.wordsW ≠ [] ∧ c.start = c.wordsW.headI.start ∧
          c.end_ = c.wordsW.getLastI.end_) ∧
    group_words_into_chunks ws maxW maxD =
      (groupWordsW ws maxW maxD).map
        (fun c => ⟨c.start, c.end_,
          String.intercalate " " (c.wordsW.map WordT.text)⟩) := by
  refine ⟨?_, ?_, rfl⟩
  · cases ws with
    | nil => simp [groupWordsW]
    | cons w rest =>
      rw [groupWordsW, groupWordsLoop_flat]
      rfl
  · cases ws with
    | nil => simp [groupWordsW]
    | cons w rest =>
      exact groupWordsLoop_spans maxW maxD rest [w] w.start w.end_
        (by simp) rfl rfl

/-- C5: every chunk produced by the grouping holds at most `maxW` words,
and its span is at most `maxD` long except possibly for a one-word chunk
(a single overlong word still forms its own chunk); the rendered subtitle
chunks carry exactly these spans and texts. -/
theorem subtitle_chunk_bounds (ws : List WordT) (maxW : ℕ) (maxD : ℚ)
    (hW : 1 ≤ maxW) :
    (∀ cw ∈ groupWordsW ws maxW maxD,
        cw.wordsW.length ≤ maxW ∧
          (cw.end_ - cw.start ≤ maxD ∨ cw.wordsW.length = 1)) ∧
    ∀ c ∈ group_words_into_chunks ws maxW maxD,
      ∃ cw ∈ groupWordsW ws maxW maxD,
        c.start = cw.start ∧ c.end_ = cw.end_ ∧
          c.text = String.intercalate " " (cw.wordsW.map WordT.text) := by
  constructor
  · intro cw hcw
    have hb : 1 ≤ cw.wordsW.length ∧ cw.wordsW.length ≤ maxW ∧
        (2 ≤ cw.wordsW.length → cw.end_ - cw.start < maxD) := by
      cases ws with
      | nil => simp [groupWordsW] at hcw
      | cons w rest =>
        exact groupWordsLoop_bounds maxW maxD hW rest [w] w.start w.end_
          (by simp) (by simpa using hW) (by intro h; simp at h) cw hcw
    refine ⟨hb.2.1, ?_⟩
    by_cases hlen : 2 ≤ cw.wordsW.length
    · exact Or.inl (le_of_lt (hb.2.2 hlen))
    · right
      omega
  · intro c hc
    rcases List.mem_map.mp hc with ⟨cw, hcw, hce⟩
    exact ⟨cw, hcw, by rw [← hce]; rfl, by rw [← hce]; rfl, by rw [← hce]; rfl⟩

/-- Witness for C5 at the scenario inputs: four words, `maxWords = 3`,
`maxChunkDuration = 2.5`. -/
theorem subtitle_chunk_bounds_witness :
    1 ≤ 3 ∧
    ((∀ cw ∈ groupWordsW [⟨0, 0.4, "gila"⟩, ⟨0.4, 0.7, "anjir"⟩,
          ⟨0.7, 1, "mantap"⟩, ⟨1, 1.3, "bro"⟩] 3 2.5,
        cw.wordsW.length ≤ 3 ∧
          (cw.end_ - cw.start ≤ 2.5 ∨ cw.wordsW.length = 1)) ∧
      ∀ c ∈ group_words_into_chunks [⟨0, 0.4, "gila"⟩, ⟨0.4, 0.7, "anjir"⟩,
          ⟨0.7, 1, "mantap"⟩, ⟨1, 1.3, "bro"⟩] 3 2.5,
        ∃ cw ∈ groupWordsW [⟨0, 0.4, "gila"⟩, ⟨0.4, 0.7, "anjir"⟩,
            ⟨0.7, 1, "mantap"⟩, ⟨1, 1.3, "bro"⟩] 3 2.5,
          c.start = cw.start ∧ c.end_ = cw.end_ ∧
            c.text = String.intercalate " " (cw.wordsW.map WordT.text)) :=
  ⟨by norm_num, subtitle_chunk_bounds _ 3 2.5 (by norm_num)⟩

/- ### Claim theorems: Keyword Spotter -/

/-- C8: every emitted keyword moment spans its segment exactly and is
scored 2 per distinct configured keyword found in the lower-cased segment
text (the found list is duplicate-free whenever the configured list is, so
repeated occurrences of one keyword count once); a segment with no match
produces nothing; and the concrete scenario with keywords
`{wow, savage, kill}` on segment `[5,7]` "wow savage kill" yields one
moment scoring 6, while "wow wow wow" with keyword `wow` scores 2. -/
theorem keyword_spotter_law (kws : List String) (segs : List Segment)
    (hnd : kws.Nodup) :
    (∀ m ∈ find_excitement_keywords kws segs,
        ∃ seg ∈ segs,
          m.start = seg.start ∧ m.end_ = seg.end_ ∧ m.text = seg.text ∧
          m.keywords = kws.filter (fun kw => strContains (strLower seg.text) kw) ∧
          m.keywords.Nodup ∧ m.keywords ≠ [] ∧
          m.score = 2 * m.keywords.length) ∧
    ((∀ seg ∈ segs, ∀ kw ∈ kws, ¬ strContains (strLower seg.text) kw = true) →
        find_excitement_keywords kws segs = []) ∧
    find_excitement_keywords ["wow", "savage", "kill"]
        [⟨5, 7, "wow savage kill"⟩] =
      [⟨5, 7, "wow savage kill", ["wow", "savage", "kill"], 6⟩] ∧
    find_excitement_keywords ["wow"] [⟨0, 1, "wow wow wow"⟩] =
      [⟨0, 1, "wow wow wow", ["wow"], 2⟩] := by
  refine ⟨?_, ?_, ?_, ?_⟩
  · intro m hm
    simp only [find_excitement_keywords] at hm
    rcases List.mem_flatMap.mp hm with ⟨seg, hseg, hmem⟩
    refine ⟨seg, hseg, ?_⟩
    by_cases hf : kws.filter (fun kw => strContains (strLower seg.text) kw) = []
    · simp [hf] at hmem
    · simp only [if_neg hf, List.mem_singleton] at hmem
      subst hmem
      refine ⟨rfl, rfl, rfl, rfl, List.Nodup.filter _ hnd, hf, by push_cast; ring⟩
  · intro hall
    rw [List.eq_nil_iff_forall_not_mem]
    intro m hm
    simp only [find_excitement_keywords] at hm
    rcases List.mem_flatMap.mp hm with ⟨seg, hseg, hmem⟩
    have hf : kws.filter (fun kw => strContains (strLower seg.text) kw) = [] := by
      rw [List.filter_eq_nil_iff]
      exact fun kw hkw => hall seg hseg kw hkw
    simp [hf] at hmem
  · simp +decide [find_excitement_keywords, strContains, strLower]
    all_goals norm_num
  · simp +decide [find_excitement_keywords, strContains, strLower]
    all_goals norm_num

/-- Witness for C8 at the scenario input: three duplicate-free keywords. -/
theorem keyword_spotter_law_witness :
    (["wow", "savage", "kill"] : List String).Nodup ∧
    (∀ m ∈ find_excitement_keywords ["wow", "savage", "kill"]
        [⟨5, 7, "wow savage kill"⟩],
      ∃ seg ∈ ([⟨5, 7, "wow savage kill"⟩] : List Segment),
        m.start = seg.start ∧ m.end_ = seg.end_ ∧ m.text = seg.text ∧
        m.keywords = (["wow", "savage", "kill"] : List String).filter
          (fun kw => strContains (strLower seg.text) kw) ∧
        m.keywords.Nodup ∧ m.keywords ≠ [] ∧
        m.score = 2 * m.keywords.length) :=
  ⟨by decide,
    (keyword_spotter_law ["wow", "savage", "kill"]
      [⟨5, 7, "wow savage kill"⟩] (by decide)).1⟩

/- ### Claim theorems: malformed interval inputs (C2) -/

/-- Counterexample to C2: a transcript segment whose interval is inverted
(`end = 5 < 7 = start`) is not rejected; the Keyword Spotter silently emits
a normal scored moment carrying the same inverted interval, so the engine
does not fail fast on malformed intervals. -/
theorem malformed_segment_processed :
    find_excitement_keywords ["wow"] [⟨7, 5, "wow"⟩] =
      [⟨7, 5, "wow", ["wow"], 2⟩] ∧ (5 : ℚ) < 7 := by
  constructor
  · simp +decide [find_excitement_keywords, strContains, strLower]
  · norm_num

/-- Amended C2: the engine performs no interval validation; a segment with
`end < start` flows through the Keyword Spotter unchanged, and every moment
it produces from such a segment carries the same inverted interval. -/
theorem malformed_segment_flows_through (kws : List String) (seg : Segment)
    (hmal : seg.end_ < seg.start) :
    ∀ m ∈ find_excitement_keywords kws [seg], m.end_ < m.start := by
  intro m hm
  simp only [find_excitement_keywords] at hm
  rcases List.mem_flatMap.mp hm with ⟨s, hs, hmem⟩
  rcases List.mem_singleton.mp hs with rfl
  by_cases hf : kws.filter (fun kw => strContains (strLower s.text) kw) = []
  · simp [hf] at hmem
  · simp only [if_neg hf, List.mem_singleton] at hmem
    subst hmem
    exact hmal

/-- Witness for the amended C2 at the concrete inverted segment. -/
theorem malformed_segment_flows_through_witness :
    ((⟨7, 5, "wow"⟩ : Segment).end_ < (⟨7, 5, "wow"⟩ : Segment).start) ∧
    ∀ m ∈ find_excitement_keywords ["wow"] [⟨7, 5, "wow"⟩],
      m.end_ < m.start :=
  ⟨by norm_num,
    malformed_segment_flows_through ["wow"] ⟨7, 5, "wow"⟩ (by norm_num)⟩

/- ### Claim theorems: Loudness Spike Detector -/

/-- C6: on a loudness curve of zero variance (every frame equal to the same
level `c`, covering both constant curves and true silence) the spike
detector returns no moments: the threshold collapses to the common level
itself, no frame strictly exceeds it, and the detector short-circuits on
the empty index set.  The embedding is total, so no division error can
occur. -/
theorem spike_detector_zero_variance (times rms : List ℝ) (mult c : ℝ)
    (hc : ∀ x ∈ rms, x = c) :
    find_volume_spikes times rms mult = [] := by
  have hidx : spikeIndices rms mult = [] := by
    unfold spikeIndices
    rw [List.filter_eq_nil_iff]
    intro i hi
    rw [List.mem_range] at hi
    have hlen : (rms.length : ℝ) ≠ 0 := by
      simp only [ne_eq, Nat.cast_eq_zero]
      omega
    have hmean : meanR rms = c := by
      unfold meanR
      rw [List.sum_eq_card_nsmul rms c hc, nsmul_eq_mul]
      field_simp
    have hstd : stdR rms = 0 := by
      unfold stdR
      rw [hmean]
      have hz : (rms.map (fun x => (x - c) ^ 2)).sum = 0 := by
        apply List.sum_eq_zero
        intro y hy
        rcases List.mem_map.mp hy with ⟨x, hx, hxy⟩
        rw [hc x hx] at hxy
        simpa using hxy.symm
      rw [hz]
      simp
    have hx : rms.getD i 0 = c := by
      rw [List.getD_eq_getElem rms 0 hi]
      exact hc _ (List.getElem_mem hi)
    simp only [decide_eq_true_eq, not_lt, hx, hmean, hstd]
    simp
  simp [find_volume_spikes, hidx]

/-- Witness for C6 on the scenario curve: constant loudness 0.2. -/
theorem spike_detector_zero_variance_witness :
    (∀ x ∈ [(0.2 : ℝ), 0.2, 0.2], x = 0.2) ∧
    find_volume_spikes [0, 1, 2] [(0.2 : ℝ), 0.2, 0.2] 1.5 = [] := by
  have hc : ∀ x ∈ [(0.2 : ℝ), 0.2, 0.2], x = 0.2 := by
    intro x hx
    simp at hx
    rcases hx with rfl | rfl | rfl <;> rfl
  exact ⟨hc, spike_detector_zero_variance [0, 1, 2] [0.2, 0.2, 0.2] 1.5 0.2 hc⟩

/-- C7: the spike clustering gap law.  Two above-threshold frame indices
exactly 10 apart fall into one cluster; 11 apart they open separate
clusters. -/
theorem spike_cluster_gap_law (i : ℕ) :
    groupSpikes [i, i + 10] = [[i, i + 10]] ∧
    groupSpikes [i, i + 11] = [[i], [i + 11]] := by
  constructor
  · show groupSpikesLoop [i] i [i + 10] = [[i, i + 10]]
    rw [groupSpikesLoop, if_pos (by push_cast; omega)]
    rfl
  · show groupSpikesLoop [i] i [i + 11] = [[i], [i + 11]]
    rw [groupSpikesLoop, if_neg (by push_cast; omega)]
    rfl
